import Mathlib

/-!
# Verification of the AsyncLog asynchronous logger

A shallow embedding of the `asynclog` Go package (logger.go, log_writer.go,
log_formatter.go, log_utils.go, and the unnamed files holding `LogMessage`
and `processLogs`), together with proofs about the embedded operations.

Modelling conventions:
* Go maps (`map[string]*os.File`, `map[string]time.Time`) are modelled as
  association lists with unique keys; map iteration order is the list order.
* `time.Time` is modelled as `Nat` (an abstract monotone clock, units are
  seconds); `time.Time.Before` is `<` on `Nat`.
* `*os.File` is modelled by `Handle` (an id, plus the path it was opened on);
  the Go `nil` file pointer stored by `writeFile` on a write failure is
  `Option.none`.
* Fallible I/O (`os.OpenFile`, `fmt.Fprintf`) is driven by explicit boolean
  oracles passed to the embedded functions; the on-disk file system is the
  explicit `SysState`.
* `fmt.Printf` diagnostics are collected as `Report` values.
* The unbounded `for` loop of `cleanupFileHandles` is embedded with explicit
  fuel (`cleanupFileHandlesFuel`); `none` means the fuel was exhausted before
  the loop guard became false.
-/

namespace AsyncLog

/-! ## Association-list model of Go string-keyed maps -/

/-- Go map read `m[k]` (the `v, ok := m[k]` form succeeds iff the result is
`some`). -/
def alookup (k : String) : List (String × α) → Option α
  | [] => none
  | (k', v) :: rest => if k' = k then some v else alookup k rest

/-- Go map write `m[k] = v`: replace in place when the key is present,
otherwise append a fresh entry. -/
def aupdate (k : String) (v : α) : List (String × α) → List (String × α)
  | [] => [(k, v)]
  | (k', v') :: rest => if k' = k then (k, v) :: rest else (k', v') :: aupdate k v rest

/-- Go map `delete(m, k)`. -/
def aerase (k : String) : List (String × α) → List (String × α)
  | [] => []
  | (k', v') :: rest => if k' = k then rest else (k', v') :: aerase k rest

/-- The key set of a Go map, in iteration order. -/
def akeys (l : List (String × α)) : List String := l.map Prod.fst

@[simp] theorem akeys_nil : akeys ([] : List (String × α)) = [] := rfl

@[simp] theorem akeys_cons (p : String × α) (l : List (String × α)) :
    akeys (p :: l) = p.1 :: akeys l := rfl

@[simp] theorem alookup_nil (k : String) : alookup k ([] : List (String × α)) = none := rfl

theorem alookup_eq_none_iff (k : String) (l : List (String × α)) :
    alookup k l = none ↔ k ∉ akeys l := by
  induction l with
  | nil => simp
  | cons p rest ih =>
    obtain ⟨k', v⟩ := p
    by_cases h : k' = k
    · subst h
      simp [alookup, akeys]
    · simp [alookup, akeys, h, ih, Ne.symm h]

theorem alookup_isSome_of_mem {k : String} {l : List (String × α)}
    (h : k ∈ akeys l) : ∃ v, alookup k l = some v := by
  cases hv : alookup k l with
  | none => exact absurd ((alookup_eq_none_iff k l).mp hv) (by simpa using h)
  | some v => exact ⟨v, rfl⟩

theorem mem_akeys_of_alookup {k : String} {v : α} {l : List (String × α)}
    (h : alookup k l = some v) : k ∈ akeys l := by
  by_contra hk
  rw [← alookup_eq_none_iff] at hk
  rw [h] at hk
  exact Option.noConfusion hk

@[simp] theorem alookup_aupdate_self (k : String) (v : α) (l : List (String × α)) :
    alookup k (aupdate k v l) = some v := by
  induction l with
  | nil => simp [aupdate, alookup]
  | cons p rest ih =>
    obtain ⟨k', v'⟩ := p
    by_cases h : k' = k
    · subst h
      simp [aupdate, alookup]
    · simp [aupdate, alookup, h, ih]

theorem alookup_aupdate_ne {k q : String} (hne : k ≠ q) (v : α) (l : List (String × α)) :
    alookup q (aupdate k v l) = alookup q l := by
  induction l with
  | nil => simp [aupdate, alookup, hne]
  | cons p rest ih =>
    obtain ⟨k', v'⟩ := p
    by_cases h : k' = k
    · subst h
      simp [aupdate, alookup, hne]
    · simp [aupdate, alookup, h, ih]

theorem akeys_aupdate_of_mem {k : String} {l : List (String × α)}
    (h : k ∈ akeys l) (v : α) : akeys (aupdate k v l) = akeys l := by
  induction l with
  | nil => simp at h
  | cons p rest ih =>
    obtain ⟨k', v'⟩ := p
    by_cases hk : k' = k
    · subst hk
      simp [aupdate]
    · have hmem : k = k' ∨ k ∈ akeys rest := by
        have h' := h
        rw [akeys_cons] at h'
        exact List.mem_cons.mp h'
      have hrest : k ∈ akeys rest := by
        rcases hmem with h1 | h2
        · exact absurd h1.symm hk
        · exact h2
      simp only [aupdate, if_neg hk, akeys_cons]
      rw [ih hrest]

theorem akeys_aupdate_of_not_mem {k : String} {l : List (String × α)}
    (h : k ∉ akeys l) (v : α) : akeys (aupdate k v l) = akeys l ++ [k] := by
  induction l with
  | nil => simp [aupdate, akeys]
  | cons p rest ih =>
    obtain ⟨k', v'⟩ := p
    have hne : k' ≠ k := by
      intro hk
      exact h (by rw [akeys_cons, hk]; exact List.mem_cons_self _ _)
    have hrest : k ∉ akeys rest := fun hm =>
      h (by rw [akeys_cons]; exact List.mem_cons_of_mem _ hm)
    simp only [aupdate, if_neg hne, akeys_cons]
    rw [ih hrest]
    rfl

theorem length_aupdate_of_mem {k : String} {l : List (String × α)}
    (h : k ∈ akeys l) (v : α) : (aupdate k v l).length = l.length := by
  have := akeys_aupdate_of_mem h v
  have h1 : (akeys (aupdate k v l)).length = (akeys l).length := by rw [this]
  simpa [akeys] using h1

theorem length_aupdate_of_not_mem {k : String} {l : List (String × α)}
    (h : k ∉ akeys l) (v : α) : (aupdate k v l).length = l.length + 1 := by
  have := akeys_aupdate_of_not_mem h v
  have h1 : (akeys (aupdate k v l)).length = (akeys l ++ [k]).length := by rw [this]
  simpa [akeys] using h1

theorem length_aupdate_le (k : String) (v : α) (l : List (String × α)) :
    (aupdate k v l).length ≤ l.length + 1 := by
  by_cases h : k ∈ akeys l
  · rw [length_aupdate_of_mem h]
    omega
  · rw [length_aupdate_of_not_mem h]

theorem akeys_aerase_sublist (k : String) (l : List (String × α)) :
    (akeys (aerase k l)).Sublist (akeys l) := by
  induction l with
  | nil => simp [aerase]
  | cons p rest ih =>
    obtain ⟨k', v'⟩ := p
    by_cases h : k' = k
    · simp [aerase, h, akeys]
    · simpa [aerase, h, akeys] using ih

theorem alookup_aerase_ne {k q : String} (hne : k ≠ q) (l : List (String × α)) :
    alookup q (aerase k l) = alookup q l := by
  induction l with
  | nil => simp [aerase]
  | cons p rest ih =>
    obtain ⟨k', v'⟩ := p
    by_cases h : k' = k
    · subst h
      simp [aerase, alookup, hne]
    · by_cases hq : k' = q
      · subst hq
        simp [aerase, alookup, h]
      · simp [aerase, alookup, h, hq, ih]

theorem alookup_aerase_self {k : String} {l : List (String × α)}
    (hnd : (akeys l).Nodup) : alookup k (aerase k l) = none := by
  induction l with
  | nil => simp [aerase]
  | cons p rest ih =>
    obtain ⟨k', v'⟩ := p
    have hnd' : (akeys rest).Nodup := (List.nodup_cons.mp hnd).2
    by_cases h : k' = k
    · subst h
      have hnotin : k' ∉ akeys rest := (List.nodup_cons.mp hnd).1
      simp [aerase, alookup_eq_none_iff, hnotin]
    · simp [aerase, alookup, h, ih hnd']

theorem alookup_aerase_none {k q : String} {l : List (String × α)}
    (h : alookup q l = none) : alookup q (aerase k l) = none := by
  rw [alookup_eq_none_iff] at h ⊢
  intro hmem
  exact h ((akeys_aerase_sublist k l).mem hmem)

theorem nodup_akeys_aerase {k : String} {l : List (String × α)}
    (hnd : (akeys l).Nodup) : (akeys (aerase k l)).Nodup :=
  hnd.sublist (akeys_aerase_sublist k l)

theorem nodup_akeys_aupdate {k : String} {l : List (String × α)}
    (hnd : (akeys l).Nodup) (v : α) : (akeys (aupdate k v l)).Nodup := by
  by_cases h : k ∈ akeys l
  · rw [akeys_aupdate_of_mem h]
    exact hnd
  · rw [akeys_aupdate_of_not_mem h]
    simpa [List.nodup_append] using ⟨hnd, h⟩

theorem length_aerase_of_mem {k : String} {l : List (String × α)}
    (h : k ∈ akeys l) : (aerase k l).length + 1 = l.length := by
  induction l with
  | nil => simp at h
  | cons p rest ih =>
    obtain ⟨k', v'⟩ := p
    by_cases hk : k' = k
    · simp [aerase, hk]
    · have hmem : k = k' ∨ k ∈ akeys rest := by
        have h' := h
        rw [akeys_cons] at h'
        exact List.mem_cons.mp h'
      have hrest : k ∈ akeys rest := by
        rcases hmem with h1 | h2
        · exact absurd h1.symm hk
        · exact h2
      simp [aerase, hk, ih hrest]

/-- Updating the same key in two maps with equal key sequences keeps the key
sequences equal. -/
theorem akeys_aupdate_congr {l₁ : List (String × α)} {l₂ : List (String × β)}
    (h : akeys l₁ = akeys l₂) (k : String) (v : α) (w : β) :
    akeys (aupdate k v l₁) = akeys (aupdate k w l₂) := by
  by_cases hk : k ∈ akeys l₁
  · rw [akeys_aupdate_of_mem hk, akeys_aupdate_of_mem (h ▸ hk), h]
  · rw [akeys_aupdate_of_not_mem hk, akeys_aupdate_of_not_mem (h ▸ hk), h]

/-- Deleting the same key from two maps with equal key sequences keeps the key
sequences equal. -/
theorem akeys_aerase_congr {l₁ : List (String × α)} {l₂ : List (String × β)}
    (h : akeys l₁ = akeys l₂) (k : String) :
    akeys (aerase k l₁) = akeys (aerase k l₂) := by
  induction l₁ generalizing l₂ with
  | nil =>
    have hl : l₂ = [] := by
      cases l₂ with
      | nil => rfl
      | cons q t => simp [akeys] at h
    subst hl
    rfl
  | cons p rest ih =>
    obtain ⟨k', v'⟩ := p
    cases l₂ with
    | nil => simp [akeys] at h
    | cons q t =>
      obtain ⟨q', w'⟩ := q
      have hh : k' = q' ∧ akeys rest = akeys t := by simpa [akeys] using h
      obtain ⟨hk', ht⟩ := hh
      by_cases hk : k' = k
      · simp [aerase, hk, hk' ▸ hk, ht]
      · have hq : q' ≠ k := hk' ▸ hk
        simp only [aerase, if_neg hk, if_neg hq, akeys_cons, hk']
        rw [ih ht]

/-! ## Severity model (logger.go: `LogLevel`, log_formatter.go: `String`)

Go declares `type LogLevel int` with iota constants; the embedding keeps the
numeric representation. -/

abbrev LogLevel := Nat

def LogLevelTrace : LogLevel := 0
def LogLevelDebug : LogLevel := 1
def LogLevelInfo : LogLevel := 2
def LogLevelWarning : LogLevel := 3
def LogLevelError : LogLevel := 4
def LogLevelFatal : LogLevel := 5

/-- log_formatter.go: `(level LogLevel) String()`. -/
def levelString : LogLevel → String
  | 0 => "TRACE"
  | 1 => "DEBUG"
  | 2 => "INFO"
  | 3 => "WARNING"
  | 4 => "ERROR"
  | 5 => "FATAL"
  | _ => "UNKNOWN"

/-! ## Color formatting (log_formatter.go)

The `github.com/fatih/color` collaborator is modelled by its observable
output: an ANSI escape prefix chosen from the level's color attribute,
the text, and a reset suffix. -/

/-- log_formatter.go: `getColorAttribute`, as the numeric SGR code of the
returned `color.Attribute` (FgCyan=36, FgMagenta=35, FgGreen=32, FgYellow=33,
FgRed=31, FgHiRed=91, Faint=2). -/
def getColorAttribute : LogLevel → Nat
  | 0 => 36
  | 1 => 35
  | 2 => 32
  | 3 => 33
  | 4 => 31
  | 5 => 91
  | _ => 2

/-- log_formatter.go: `formatLogLevel`; the color library renders text by
wrapping it in the attribute's escape sequence (plus Bold=1 when requested). -/
def formatLogLevel (text : String) (level : LogLevel) (bold : Bool) : String :=
  "\x1b[" ++ toString (getColorAttribute level) ++ (if bold then ";1" else "") ++ "m"
    ++ text ++ "\x1b[0m"

/-- log_formatter.go: `formatParamsWithColor` (Faint = SGR 2). -/
def formatParamsWithColor (params : String) : String :=
  if params = "" then "" else "\x1b[2m" ++ params ++ "\x1b[0m"

/-! ## Event envelope and per-call options (src/unnamed/part_000) -/

/-- The `LogMessage` struct. `interface{}` parameter values are opaque to the
core and are modelled as strings (only the pluggable formatter consumes
them). -/
structure LogMessage where
  Level : LogLevel
  Message : String
  FileMessage : String
  ConsoleMessage : String
  File : String
  Params : List (String × String)
deriving DecidableEq, Repr

/-- `LogOption` mutates a `LogMessage` in place; modelled as an
endofunction. -/
abbrev LogOption := LogMessage → LogMessage

/-- src/unnamed/part_000: `SetLogFile`. -/
def SetLogFile (file : String) : LogOption := fun m => { m with File := file }

/-- src/unnamed/part_000: `SetLogParams`. -/
def SetLogParams (params : List (String × String)) : LogOption :=
  fun m => { m with Params := params }

/-! ## Logger configuration state (logger.go)

The handle-cache fields (`fileHandles`, `fileAccessTimes`, `maxFileHandles`
as used by log_writer.go) are factored into `CacheState` below; this
structure carries the dispatcher-side and constructor-side fields. Both
`maxFileHandles` and the channel capacity are Go `int`s, hence `Int`. -/

structure Logger where
  FileLevel : LogLevel
  ConsoleLevel : LogLevel
  DefaultFileName : String
  OutputToFile : Bool
  OutputToConsole : Bool
  AddSource : Bool
  maxFileHandles : Int
  bufferSize : Int
deriving DecidableEq, Repr

/-- The default field values assigned at the top of `NewLogger`
(FileLevel=Info, ConsoleLevel=Debug, both outputs on, buffer 100, handle
limit 10). -/
def newLoggerDefaults : Logger :=
  { FileLevel := LogLevelInfo
    ConsoleLevel := LogLevelDebug
    DefaultFileName := "default.log"
    OutputToFile := true
    OutputToConsole := true
    AddSource := false
    maxFileHandles := 10
    bufferSize := 100 }

/-- logger.go: `LoggerOption`. -/
abbrev LoggerOption := Logger → Except String Logger

/-- logger.go: `SetBufferSize`. -/
def SetBufferSize (size : Int) : LoggerOption := fun l =>
  if size ≤ 0 then Except.error "bufferSize must be positive"
  else Except.ok { l with bufferSize := size }

/-- logger.go: `SetMaxFileHandles`. -/
def SetMaxFileHandles (maxHandles : Int) : LoggerOption := fun l =>
  if maxHandles ≤ 0 then Except.error "maxFileHandles must be positive"
  else Except.ok { l with maxFileHandles := maxHandles }

/-- logger.go: `SetFileLevel`. -/
def SetFileLevel (level : LogLevel) : LoggerOption := fun l =>
  Except.ok { l with FileLevel := level }

/-- logger.go: `SetConsoleLevel`. -/
def SetConsoleLevel (level : LogLevel) : LoggerOption := fun l =>
  Except.ok { l with ConsoleLevel := level }

/-- logger.go: `EnableFileOutput`. -/
def EnableFileOutput (enable : Bool) : LoggerOption := fun l =>
  Except.ok { l with OutputToFile := enable }

/-- logger.go: `EnableConsoleOutput`. -/
def EnableConsoleOutput (enable : Bool) : LoggerOption := fun l =>
  Except.ok { l with OutputToConsole := enable }

/-- The option-application loop of `NewLogger`: options run in order and the
first error aborts construction. -/
def applyOptions : Logger → List LoggerOption → Except String Logger
  | l, [] => Except.ok l
  | l, opt :: rest =>
    match opt l with
    | Except.error e => Except.error e
    | Except.ok l1 => applyOptions l1 rest

/-- logger.go: `NewLogger`. The `Bool` paired with a successful result records
that the two background tasks (cleanup ticker goroutine and `processLogs`
goroutine) were started; in the source the `go` statements sit after the
option loop, so they run only on the success path. -/
def NewLogger (opts : List LoggerOption) : Except String (Logger × Bool) :=
  match applyOptions newLoggerDefaults opts with
  | Except.error e => Except.error e
  | Except.ok l => Except.ok (l, true)

/-! ## Dispatcher (logger.go: `log`, `prepareFileMessage`,
`prepareConsoleMessage`) -/

/-- logger.go: `prepareFileMessage`. -/
def prepareFileMessage (timestamp sourceInfo : String) (level : LogLevel)
    (message formattedParams : String) : String :=
  let fileMessage :=
    "[" ++ timestamp ++ "]" ++ sourceInfo ++ " " ++ levelString level ++ ": " ++ message
  if formattedParams ≠ "" then fileMessage ++ "\n" ++ formattedParams else fileMessage

/-- logger.go: `prepareConsoleMessage`. -/
def prepareConsoleMessage (timestamp sourceInfo : String) (level : LogLevel)
    (message formattedParams : String) : String :=
  let coloredLevel := formatLogLevel (levelString level) level true
  let coloredMessage := formatLogLevel message level false
  let consoleMessage :=
    "[" ++ timestamp ++ "]" ++ sourceInfo ++ " " ++ coloredLevel ++ ": " ++ coloredMessage
  if formattedParams ≠ "" then consoleMessage ++ "\n" ++ formatParamsWithColor formattedParams
  else consoleMessage

/-- logger.go: `log`. Ambient inputs that the source reads from the
environment arrive as arguments: the pluggable `paramFormatter`, the
formatted wall-clock `timestamp`, and the caller file/line that
`getCallerInfo` would resolve. The function returns the envelope sent to
`LogChannel`, or `none` when the fast-reject path returns before building
one. -/
def log (l : Logger) (paramFormatter : List (String × String) → String)
    (timestamp : String) (callerFile : String) (callerLine : Nat)
    (level : LogLevel) (message : String) (opts : List LogOption) : Option LogMessage :=
  if level < l.FileLevel ∧ level < l.ConsoleLevel then none
  else
    let m0 : LogMessage :=
      { Level := level, Message := message, FileMessage := "", ConsoleMessage := "",
        File := l.DefaultFileName, Params := [] }
    let logMsg := opts.foldl (fun m o => o m) m0
    let formattedParams := paramFormatter logMsg.Params
    let sourceInfo :=
      if l.AddSource then "[" ++ callerFile ++ ":" ++ toString callerLine ++ "]" else ""
    let fileMessage :=
      if l.FileLevel ≤ level then
        prepareFileMessage timestamp sourceInfo level logMsg.Message formattedParams
      else ""
    let consoleMessage :=
      if l.ConsoleLevel ≤ level then
        prepareConsoleMessage timestamp sourceInfo level logMsg.Message formattedParams
      else ""
    some { Level := level, Message := "", FileMessage := fileMessage,
           ConsoleMessage := consoleMessage, File := logMsg.File, Params := [] }

/-! ## Async worker (src/unnamed/part_001: `processLogs`) -/

/-- Observable sink actions of one worker iteration. -/
inductive Effect where
  | fileWrite (path text : String)
  | consolePrint (text : String)
deriving DecidableEq, Repr

/-- The body of `processLogs` for one dequeued message: which sink calls it
performs, in order. -/
def processLog (l : Logger) (m : LogMessage) : List Effect :=
  (if l.OutputToFile ∧ l.FileLevel ≤ m.Level then
      [Effect.fileWrite (if m.File = "" then l.DefaultFileName else m.File) m.FileMessage]
    else [])
  ++ (if l.OutputToConsole ∧ l.ConsoleLevel ≤ m.Level then
      [Effect.consolePrint m.ConsoleMessage]
    else [])

/-! ## File sink / handle cache (log_writer.go) -/

/-- logger.go constant `DefaultUnusedFileHandleThreshold = 30 * time.Minute`,
in seconds. -/
def DefaultUnusedFileHandleThreshold : Nat := 30 * 60

/-- logger.go constant `DefaultCleanupTicker = 10 * time.Minute`, in
seconds. -/
def DefaultCleanupTicker : Nat := 10 * 60

/-- logger.go constant `DefaultMaxFileHandles`. -/
def DefaultMaxFileHandles : Nat := 10

/-- A `*os.File`: an id (allocation order) plus the path it was opened on. -/
structure Handle where
  id : Nat
  path : String
deriving DecidableEq, Repr

/-- The handle-cache part of the `Logger` struct, accessed under
`fileMutex`. A map value of `none` is the Go `nil` file pointer that
`writeFile` stores on a write failure (the key stays in the map, so Go's
`len` still counts it). -/
structure CacheState where
  fileHandles : List (String × Option Handle)
  fileAccessTimes : List (String × Nat)
  maxFileHandles : Nat
deriving DecidableEq, Repr

/-- The on-disk world: file contents by path, plus the source of fresh
handle ids. -/
structure SysState where
  files : List (String × String)
  nextHandle : Nat
deriving DecidableEq, Repr

/-- Diagnostics the source prints with `fmt.Printf`. -/
inductive Report where
  | openFailure (path : String)
  | writeFailure (path : String)
  | closeFailure
deriving DecidableEq, Repr

/-- `os.OpenFile(filename, os.O_APPEND|os.O_CREATE|os.O_WRONLY, 0644)` on the
success path: an existing file keeps its contents (no `O_TRUNC`); a missing
file is created empty; writes through the returned handle go to the end of
the file (`O_APPEND`). -/
def openFileAppend (path : String) (sys : SysState) : Handle × SysState :=
  let files1 :=
    match alookup path sys.files with
    | some _ => sys.files
    | none => aupdate path "" sys.files
  (⟨sys.nextHandle, path⟩, { files := files1, nextHandle := sys.nextHandle + 1 })

/-- An `O_APPEND` write through an open handle: append to the current
contents of the handle's file. -/
def appendToFile (path text : String) (sys : SysState) : SysState :=
  { sys with files := aupdate path ((alookup path sys.files).getD "" ++ text) sys.files }

/-- The tail of `writeFile` after a handle is available: refresh
`fileAccessTimes[filename]`, then `fmt.Fprintf(file, "%s\n", message)`;
on write failure report it and store `nil` under the key. `writeOk` is the
I/O oracle for the `Fprintf` call. -/
def writeAppendStep (now : Nat) (writeOk : Bool) (filename message : String)
    (file : Handle) (s : CacheState) (sys : SysState) :
    CacheState × SysState × List Report :=
  let s1 := { s with fileAccessTimes := aupdate filename now s.fileAccessTimes }
  if writeOk then
    (s1, appendToFile file.path (message ++ "\n") sys, [])
  else
    ({ s1 with fileHandles := aupdate filename none s1.fileHandles }, sys,
      [Report.writeFailure filename])

/-- The body of `writeFile` after the capacity-cleanup step: look up the
handle (`!ok || file == nil` forces a re-open), open on demand (`openOk` is
the I/O oracle for `os.OpenFile`; on failure report and return), then
`writeAppendStep`. -/
def writeFileBody (now : Nat) (openOk writeOk : Bool) (filename message : String)
    (s : CacheState) (sys : SysState) : CacheState × SysState × List Report :=
  match alookup filename s.fileHandles with
  | some (some file) => writeAppendStep now writeOk filename message file s sys
  | _ =>
    if openOk then
      let opened := openFileAppend filename sys
      let s1 := { s with fileHandles := aupdate filename (some opened.1) s.fileHandles }
      writeAppendStep now writeOk filename message opened.1 s1 opened.2
    else
      (s, sys, [Report.openFailure filename])

/-- One pass of the inner scan of `cleanupFileHandles`: fold
`accessTime.Before(oldestTime)` over `fileAccessTimes` starting from
`(time.Now(), "")`. -/
def findOldestAux (t : Nat) (f : String) : List (String × Nat) → Nat × String
  | [] => (t, f)
  | (k, a) :: rest => if a < t then findOldestAux a k rest else findOldestAux t f rest

/-- One iteration of the `for len(l.fileHandles) > l.maxFileHandles` loop of
`cleanupFileHandles`: find the least-recently-used entry and, when one with a
non-empty name carries a cached handle, close it and delete it from both
maps. -/
def cleanupIter (now : Nat) (s : CacheState) : CacheState :=
  let oldestFile := (findOldestAux now "" s.fileAccessTimes).2
  if oldestFile ≠ "" then
    match alookup oldestFile s.fileHandles with
    | some _ =>
      { s with fileHandles := aerase oldestFile s.fileHandles,
               fileAccessTimes := aerase oldestFile s.fileAccessTimes }
    | none => s
  else s

/-- log_writer.go: `cleanupFileHandles`, with explicit fuel for the
unbounded loop; `none` means the guard was still true when the fuel ran
out. -/
def cleanupFileHandlesFuel (now : Nat) : Nat → CacheState → Option CacheState
  | 0, s => if s.fileHandles.length > s.maxFileHandles then none else some s
  | fuel + 1, s =>
    if s.fileHandles.length > s.maxFileHandles then
      cleanupFileHandlesFuel now fuel (cleanupIter now s)
    else some s

/-- log_writer.go: `writeFile`. The leading capacity check runs
`cleanupFileHandles` only when `len(l.fileHandles) > l.maxFileHandles`. -/
def writeFile (fuel now : Nat) (openOk writeOk : Bool) (filename message : String)
    (s : CacheState) (sys : SysState) : Option (CacheState × SysState × List Report) :=
  match (if s.fileHandles.length > s.maxFileHandles
          then cleanupFileHandlesFuel now fuel s else some s) with
  | none => none
  | some s1 => some (writeFileBody now openOk writeOk filename message s1 sys)

/-- The loop body of `cleanupUnusedFileHandles`, folded over a snapshot of
`fileAccessTimes` (Go permits deleting the entry being visited during
`range`). Returns the new state and the list of entries that were closed and
removed. -/
def cleanupUnusedAux (threshold : Nat) :
    List (String × Nat) → CacheState → CacheState × List (String × Option Handle)
  | [], s => (s, [])
  | (filename, accessTime) :: rest, s =>
    if accessTime < threshold then
      match alookup filename s.fileHandles with
      | some file =>
        let res := cleanupUnusedAux threshold rest
          { s with fileHandles := aerase filename s.fileHandles,
                   fileAccessTimes := aerase filename s.fileAccessTimes }
        (res.1, (filename, file) :: res.2)
      | none => cleanupUnusedAux threshold rest s
    else cleanupUnusedAux threshold rest s

/-- log_writer.go: `cleanupUnusedFileHandles` (the idle reclaimer body run on
every ticker tick):
`threshold := time.Now().Add(-DefaultUnusedFileHandleThreshold)`. -/
def cleanupUnusedFileHandles (now : Nat) (s : CacheState) :
    CacheState × List (String × Option Handle) :=
  cleanupUnusedAux (now - DefaultUnusedFileHandleThreshold) s.fileAccessTimes s

/-! ## Shutdown (logger.go: `Close`)

`Close` ranges over `fileHandles` calling `file.Close()` and printing
failures; it deletes nothing from either map. To observe closing, the OS-side
table of open handle ids (`opens`) is threaded explicitly: closing an id that
is open removes it; closing an id that is not open (double close), or a `nil`
file pointer, fails with a reported error — `os.File.Close` returns an error
in those cases and never panics. -/

/-- The `for _, file := range l.fileHandles` loop of `Close`. -/
def closeHandlesLoop : List (String × Option Handle) → List Nat → List Nat × List Report
  | [], opens => (opens, [])
  | (_, some h) :: rest, opens =>
    if h.id ∈ opens then
      closeHandlesLoop rest (opens.erase h.id)
    else
      let res := closeHandlesLoop rest opens
      (res.1, Report.closeFailure :: res.2)
  | (_, none) :: rest, opens =>
    let res := closeHandlesLoop rest opens
    (res.1, Report.closeFailure :: res.2)

/-- logger.go: `Close`. Returns the unchanged cache (the source deletes no
map entries), the OS open-handle table after the close calls, and the
reported close failures. -/
def CloseLogger (s : CacheState) (opens : List Nat) :
    CacheState × List Nat × List Report :=
  let res := closeHandlesLoop s.fileHandles opens
  (s, res.1, res.2)

/-- The cached handle ids, in map order (skipping `nil` entries). -/
def handleIds (l : List (String × Option Handle)) : List Nat :=
  l.filterMap fun pe => pe.2.map Handle.id

/-! ## Support lemmas for the dispatcher -/

theorem append_ne_empty_left {s : String} (hs : s ≠ "") (t : String) : s ++ t ≠ "" := by
  intro h
  have hl := congrArg String.length h
  rw [String.length_append] at hl
  have hs0 : s.length = 0 := by
    have : ("" : String).length = 0 := rfl
    omega
  exact hs (by
    cases s with
    | mk data =>
      cases data with
      | nil => rfl
      | cons c cs => simp [String.length] at hs0)

theorem bracket_ne_empty : ("[" : String) ≠ "" := by decide

/-- The file-sink rendering always starts with a bracketed timestamp, so it is
never the empty string. -/
theorem prepareFileMessage_ne_empty (timestamp sourceInfo : String) (level : LogLevel)
    (message formattedParams : String) :
    prepareFileMessage timestamp sourceInfo level message formattedParams ≠ "" := by
  unfold prepareFileMessage
  split
  all_goals
    repeat
      first
        | exact bracket_ne_empty
        | apply append_ne_empty_left

/-- The console-sink rendering always starts with a bracketed timestamp, so it
is never the empty string. -/
theorem prepareConsoleMessage_ne_empty (timestamp sourceInfo : String) (level : LogLevel)
    (message formattedParams : String) :
    prepareConsoleMessage timestamp sourceInfo level message formattedParams ≠ "" := by
  unfold prepareConsoleMessage
  split
  all_goals
    repeat
      first
        | exact bracket_ne_empty
        | apply append_ne_empty_left

/-! ## Claim C2 -/

/-- C2: for every severity, message, and per-call options, an event whose
severity is strictly below both the file threshold and the console threshold
makes `log` return before building an envelope, rendering any text, or
sending anything to the log channel: the embedded `log` — whose `some` result
is exactly the envelope pushed onto `LogChannel` — returns `none`. -/
theorem log_fast_reject_below_both_thresholds (l : Logger)
    (paramFormatter : List (String × String) → String)
    (timestamp callerFile : String) (callerLine : Nat)
    (level : LogLevel) (message : String) (opts : List LogOption)
    (hf : level < l.FileLevel) (hc : level < l.ConsoleLevel) :
    log l paramFormatter timestamp callerFile callerLine level message opts = none := by
  unfold log
  rw [if_pos ⟨hf, hc⟩]

theorem log_fast_reject_below_both_thresholds_witness :
    log newLoggerDefaults (fun _ => "") "2024/01/02 03:04:05" "main.go" 17
      LogLevelTrace "hello" [] = none :=
  log_fast_reject_below_both_thresholds newLoggerDefaults (fun _ => "")
    "2024/01/02 03:04:05" "main.go" 17 LogLevelTrace "hello" [] (by decide) (by decide)

/-! ## Claim C4 -/

/-- Shared analysis of `log` past the fast-reject check: the envelope exists
and each sink's rendered field is non-empty exactly when that sink's
threshold is met. -/
theorem log_rendering_analysis (l : Logger)
    (paramFormatter : List (String × String) → String)
    (timestamp callerFile : String) (callerLine : Nat)
    (level : LogLevel) (message : String) (opts : List LogOption)
    (hpass : ¬(level < l.FileLevel ∧ level < l.ConsoleLevel)) :
    ∃ m, log l paramFormatter timestamp callerFile callerLine level message opts = some m ∧
      (m.FileMessage ≠ "" ↔ l.FileLevel ≤ level) ∧
      (m.ConsoleMessage ≠ "" ↔ l.ConsoleLevel ≤ level) := by
  unfold log
  rw [if_neg hpass]
  refine ⟨_, rfl, ?_, ?_⟩
  · by_cases hf : l.FileLevel ≤ level
    · simp only [if_pos hf]
      exact iff_of_true (prepareFileMessage_ne_empty _ _ _ _ _) hf
    · simp only [if_neg hf]
      exact iff_of_false (by simp) hf
  · by_cases hc : l.ConsoleLevel ≤ level
    · simp only [if_pos hc]
      exact iff_of_true (prepareConsoleMessage_ne_empty _ _ _ _ _) hc
    · simp only [if_neg hc]
      exact iff_of_false (by simp) hc

/-- C4: every emit call that passes the fast-reject check enqueues an
envelope whose file-rendered text is non-empty iff the severity is at or
above the file threshold, and whose console-rendered text is non-empty iff
the severity is at or above the console threshold; the unmet sink's field
stays the empty string while the envelope is still constructed and
enqueued (`log` returns `some`). -/
theorem log_envelope_rendering_matches_thresholds (l : Logger)
    (paramFormatter : List (String × String) → String)
    (timestamp callerFile : String) (callerLine : Nat)
    (level : LogLevel) (message : String) (opts : List LogOption)
    (hpass : ¬(level < l.FileLevel ∧ level < l.ConsoleLevel)) :
    ∃ m, log l paramFormatter timestamp callerFile callerLine level message opts = some m ∧
      (m.FileMessage ≠ "" ↔ l.FileLevel ≤ level) ∧
      (m.ConsoleMessage ≠ "" ↔ l.ConsoleLevel ≤ level) :=
  log_rendering_analysis l paramFormatter timestamp callerFile callerLine level
    message opts hpass

theorem log_envelope_rendering_matches_thresholds_witness :
    ∃ m, log newLoggerDefaults (fun _ => "") "2024/01/02 03:04:05" "main.go" 17
        LogLevelDebug "hello" [] = some m ∧
      (m.FileMessage ≠ "" ↔ newLoggerDefaults.FileLevel ≤ LogLevelDebug) ∧
      (m.ConsoleMessage ≠ "" ↔ newLoggerDefaults.ConsoleLevel ≤ LogLevelDebug) :=
  log_envelope_rendering_matches_thresholds newLoggerDefaults (fun _ => "")
    "2024/01/02 03:04:05" "main.go" 17 LogLevelDebug "hello" [] (by decide)

/-! ## Claim C10 -/

/-- C10: with `OutputToFile = false` and `OutputToConsole = false`, an emit
whose severity meets at least one threshold still renders the met sink's text
and enqueues an envelope — the fast-reject check consults only the two
thresholds — and the worker body (`processLog`) discards the dequeued
envelope performing no file write and no console print. -/
theorem log_enqueues_and_worker_discards_when_outputs_off (l : Logger)
    (paramFormatter : List (String × String) → String)
    (timestamp callerFile : String) (callerLine : Nat)
    (level : LogLevel) (message : String) (opts : List LogOption)
    (hof : l.OutputToFile = false) (hoc : l.OutputToConsole = false)
    (hpass : ¬(level < l.FileLevel ∧ level < l.ConsoleLevel)) :
    ∃ m, log l paramFormatter timestamp callerFile callerLine level message opts = some m ∧
      (l.FileLevel ≤ level → m.FileMessage ≠ "") ∧
      (l.ConsoleLevel ≤ level → m.ConsoleMessage ≠ "") ∧
      processLog l m = [] := by
  obtain ⟨m, hm, hfile, hconsole⟩ :=
    log_rendering_analysis l paramFormatter timestamp callerFile
      callerLine level message opts hpass
  exact ⟨m, hm, fun h => hfile.mpr h, fun h => hconsole.mpr h,
    by simp [processLog, hof, hoc]⟩

/-- A logger with both output toggles disabled, for the C10 witness. -/
def silentLogger : Logger :=
  { newLoggerDefaults with OutputToFile := false, OutputToConsole := false }

theorem log_enqueues_and_worker_discards_when_outputs_off_witness :
    ∃ m, log silentLogger
        (fun _ => "") "2024/01/02 03:04:05" "main.go" 17 LogLevelError "oops" [] = some m ∧
      (silentLogger.FileLevel ≤ LogLevelError → m.FileMessage ≠ "") ∧
      (silentLogger.ConsoleLevel ≤ LogLevelError → m.ConsoleMessage ≠ "") ∧
      processLog silentLogger m = [] :=
  log_enqueues_and_worker_discards_when_outputs_off silentLogger
    (fun _ => "") "2024/01/02 03:04:05" "main.go" 17 LogLevelError "oops" []
    rfl rfl (by decide)

/-! ## Claim C7 -/

theorem applyOptions_append (l : Logger) (xs ys : List LoggerOption) :
    applyOptions l (xs ++ ys) =
      match applyOptions l xs with
      | Except.error e => Except.error e
      | Except.ok l1 => applyOptions l1 ys := by
  induction xs generalizing l with
  | nil => simp [applyOptions]
  | cons o rest ih =>
    simp only [List.cons_append, applyOptions]
    cases o l with
    | error e => rfl
    | ok l1 => exact ih l1

/-- C7: `NewLogger` invoked with `SetMaxFileHandles n` for `n ≤ 0`, or with
`SetBufferSize m` for `m ≤ 0` (after any prefix of options that succeed),
returns synchronously with a nil logger and a non-nil error; since the
construction fails, the paired tasks-started flag — true exactly when the
source reaches the two `go` statements — never arises, so neither the worker
nor the periodic reclaimer is started. -/
theorem newLogger_rejects_nonpositive_config (n m : Int) (hn : n ≤ 0) (hm : m ≤ 0)
    (pre post pre2 post2 : List LoggerOption) (l1 l2 : Logger)
    (h1 : applyOptions newLoggerDefaults pre = Except.ok l1)
    (h2 : applyOptions newLoggerDefaults pre2 = Except.ok l2) :
    NewLogger (pre ++ SetMaxFileHandles n :: post) =
        Except.error "maxFileHandles must be positive" ∧
    NewLogger (pre2 ++ SetBufferSize m :: post2) =
        Except.error "bufferSize must be positive" := by
  constructor
  · unfold NewLogger
    rw [applyOptions_append, h1]
    simp [applyOptions, SetMaxFileHandles, if_pos hn]
  · unfold NewLogger
    rw [applyOptions_append, h2]
    simp [applyOptions, SetBufferSize, if_pos hm]

theorem newLogger_rejects_nonpositive_config_witness :
    NewLogger ([] ++ SetMaxFileHandles 0 :: []) =
        Except.error "maxFileHandles must be positive" ∧
    NewLogger ([] ++ SetBufferSize (-3) :: []) =
        Except.error "bufferSize must be positive" :=
  newLogger_rejects_nonpositive_config 0 (-3) (by decide) (by decide)
    [] [] [] [] newLoggerDefaults newLoggerDefaults rfl rfl

/-! ## Support lemmas for the handle cache -/

theorem cleanupIter_max (now : Nat) (s : CacheState) :
    (cleanupIter now s).maxFileHandles = s.maxFileHandles := by
  unfold cleanupIter
  dsimp only
  split
  · split <;> rfl
  · rfl

theorem cleanupFuel_some_le {now fuel : Nat} {s s' : CacheState}
    (h : cleanupFileHandlesFuel now fuel s = some s') :
    s'.fileHandles.length ≤ s'.maxFileHandles := by
  induction fuel generalizing s with
  | zero =>
    unfold cleanupFileHandlesFuel at h
    by_cases hg : s.fileHandles.length > s.maxFileHandles
    · rw [if_pos hg] at h
      exact absurd h (by simp)
    · rw [if_neg hg] at h
      cases h
      omega
  | succ fuel ih =>
    unfold cleanupFileHandlesFuel at h
    by_cases hg : s.fileHandles.length > s.maxFileHandles
    · rw [if_pos hg] at h
      exact ih h
    · rw [if_neg hg] at h
      cases h
      omega

theorem cleanupFuel_some_max {now fuel : Nat} {s s' : CacheState}
    (h : cleanupFileHandlesFuel now fuel s = some s') :
    s'.maxFileHandles = s.maxFileHandles := by
  induction fuel generalizing s with
  | zero =>
    unfold cleanupFileHandlesFuel at h
    by_cases hg : s.fileHandles.length > s.maxFileHandles
    · rw [if_pos hg] at h
      exact absurd h (by simp)
    · rw [if_neg hg] at h
      cases h
      rfl
  | succ fuel ih =>
    unfold cleanupFileHandlesFuel at h
    by_cases hg : s.fileHandles.length > s.maxFileHandles
    · rw [if_pos hg] at h
      rw [ih h, cleanupIter_max]
    · rw [if_neg hg] at h
      cases h
      rfl

theorem writeAppendStep_max (now : Nat) (wOk : Bool) (fn msg : String) (file : Handle)
    (s : CacheState) (sys : SysState) :
    ((writeAppendStep now wOk fn msg file s sys).1).maxFileHandles = s.maxFileHandles := by
  unfold writeAppendStep
  split <;> rfl

theorem writeAppendStep_length_of_mem {fn : String} {s : CacheState}
    (hmem : fn ∈ akeys s.fileHandles) (now : Nat) (wOk : Bool) (msg : String)
    (file : Handle) (sys : SysState) :
    ((writeAppendStep now wOk fn msg file s sys).1).fileHandles.length
      = s.fileHandles.length := by
  unfold writeAppendStep
  split
  · rfl
  · exact length_aupdate_of_mem hmem none

theorem writeFileBody_max (now : Nat) (oOk wOk : Bool) (fn msg : String)
    (s : CacheState) (sys : SysState) :
    ((writeFileBody now oOk wOk fn msg s sys).1).maxFileHandles = s.maxFileHandles := by
  unfold writeFileBody
  cases hl : alookup fn s.fileHandles with
  | some ho =>
    cases ho with
    | some file => exact writeAppendStep_max now wOk fn msg file s sys
    | none =>
      by_cases ho2 : oOk
      · simp only [if_pos ho2]
        exact writeAppendStep_max ..
      · simp only [if_neg ho2]
  | none =>
    by_cases ho2 : oOk
    · simp only [if_pos ho2]
      exact writeAppendStep_max ..
    · simp only [if_neg ho2]

theorem writeFileBody_length_le {s : CacheState}
    (hle : s.fileHandles.length ≤ s.maxFileHandles)
    (now : Nat) (oOk wOk : Bool) (fn msg : String) (sys : SysState) :
    ((writeFileBody now oOk wOk fn msg s sys).1).fileHandles.length
      ≤ s.maxFileHandles + 1 := by
  unfold writeFileBody
  cases hl : alookup fn s.fileHandles with
  | some ho =>
    cases ho with
    | some file =>
      rw [writeAppendStep_length_of_mem (mem_akeys_of_alookup hl)]
      omega
    | none =>
      by_cases ho2 : oOk
      · simp only [if_pos ho2]
        rw [writeAppendStep_length_of_mem
          (mem_akeys_of_alookup (alookup_aupdate_self fn _ s.fileHandles))]
        calc (aupdate fn (some (openFileAppend fn sys).1) s.fileHandles).length
            ≤ s.fileHandles.length + 1 := length_aupdate_le ..
          _ ≤ s.maxFileHandles + 1 := by omega
      · simp only [if_neg ho2]
        omega
  | none =>
    by_cases ho2 : oOk
    · simp only [if_pos ho2]
      rw [writeAppendStep_length_of_mem
        (mem_akeys_of_alookup (alookup_aupdate_self fn _ s.fileHandles))]
      calc (aupdate fn (some (openFileAppend fn sys).1) s.fileHandles).length
          ≤ s.fileHandles.length + 1 := length_aupdate_le ..
        _ ≤ s.maxFileHandles + 1 := by omega
    · simp only [if_neg ho2]
      omega

theorem writeFile_occupancy {fuel now : Nat} {oOk wOk : Bool} {fn msg : String}
    {s : CacheState} {sys : SysState} {r : CacheState × SysState × List Report}
    (h : writeFile fuel now oOk wOk fn msg s sys = some r) :
    r.1.fileHandles.length ≤ r.1.maxFileHandles + 1 ∧
      r.1.maxFileHandles = s.maxFileHandles := by
  unfold writeFile at h
  by_cases hg : s.fileHandles.length > s.maxFileHandles
  · rw [if_pos hg] at h
    cases hc : cleanupFileHandlesFuel now fuel s with
    | none =>
      rw [hc] at h
      exact absurd h (by simp)
    | some s1 =>
      rw [hc] at h
      simp only [Option.some.injEq] at h
      subst h
      have hle : s1.fileHandles.length ≤ s1.maxFileHandles := cleanupFuel_some_le hc
      have hmax : s1.maxFileHandles = s.maxFileHandles := cleanupFuel_some_max hc
      have hbody := writeFileBody_length_le hle now oOk wOk fn msg sys
      have hbmax := writeFileBody_max now oOk wOk fn msg s1 sys
      constructor
      · rw [hbmax]
        exact hbody
      · rw [hbmax, hmax]
  · rw [if_neg hg] at h
    simp only [Option.some.injEq] at h
    subst h
    have hle : s.fileHandles.length ≤ s.maxFileHandles := by omega
    have hbody := writeFileBody_length_le hle now oOk wOk fn msg sys
    have hbmax := writeFileBody_max now oOk wOk fn msg s sys
    constructor
    · rw [hbmax]
      exact hbody
    · rw [hbmax]

/-! ## A sequence of writes (for claim C1) -/

/-- One `writeFile` invocation: wall-clock time, the two I/O oracles, the
destination path and the text. -/
structure WriteCall where
  now : Nat
  openOk : Bool
  writeOk : Bool
  path : String
  text : String
deriving DecidableEq, Repr

/-- Run a sequence of `writeFile` calls. -/
def runWrites (fuel : Nat) : List WriteCall → CacheState → SysState →
    Option (CacheState × SysState)
  | [], s, sys => some (s, sys)
  | c :: rest, s, sys =>
    match writeFile fuel c.now c.openOk c.writeOk c.path c.text s sys with
    | none => none
    | some r => runWrites fuel rest r.1 r.2.1

/-! ## Claim C1 -/

/-- The empty cache with `maxFileHandles = 2` and an empty file system. -/
def c1Cache : CacheState := ⟨[], [], 2⟩

def c1Sys : SysState := ⟨[], 0⟩

/-- The C1 scenario: writes to paths A, B, C (in that order, at times
1, 2, 3, all I/O succeeding). -/
def c1Calls : List WriteCall :=
  [⟨1, true, true, "A", "a"⟩, ⟨2, true, true, "B", "b"⟩, ⟨3, true, true, "C", "c"⟩]

def c1Run : Option (CacheState × SysState) := runWrites 10 c1Calls c1Cache c1Sys

/-- Counterexample to C1 as stated: with `maxFileHandles = 2`, after writes
to A, B, C the cache holds all three paths {A, B, C} — three entries, more
than the limit — and A, the least-recently-used entry, is still present
(the capacity check `len > maxFileHandles` runs before the new open, so
eviction only happens on a later write). -/
theorem writeFile_abc_keeps_lru_entry_counterexample :
    (c1Run.map fun r => akeys r.1.fileHandles) = some ["A", "B", "C"] ∧
    (c1Run.map fun r => decide (r.1.fileHandles.length ≤ r.1.maxFileHandles))
      = some false := by
  constructor <;> decide

/-- C1 amended: after any sequence of `writeFile` calls from a state within
the lazy bound (in particular from the empty cache), the handle cache holds
at most `maxFileHandles + 1` entries — not `maxFileHandles` — because the
eviction pass runs at the start of a write, before the new path is inserted,
and only when the occupancy already exceeds the limit. With `N = 2` and
writes to A, B, C the cache afterwards contains exactly {A, B, C}; A is
evicted only at the start of the next write. -/
theorem writeFile_sequence_occupancy_bound (fuel : Nat) (calls : List WriteCall)
    (s : CacheState) (sys : SysState) (res : CacheState × SysState)
    (hinv : s.fileHandles.length ≤ s.maxFileHandles + 1)
    (h : runWrites fuel calls s sys = some res) :
    res.1.fileHandles.length ≤ res.1.maxFileHandles + 1 := by
  induction calls generalizing s sys with
  | nil =>
    unfold runWrites at h
    simp only [Option.some.injEq] at h
    subst h
    exact hinv
  | cons c rest ih =>
    unfold runWrites at h
    cases hw : writeFile fuel c.now c.openOk c.writeOk c.path c.text s sys with
    | none =>
      rw [hw] at h
      exact absurd h (by simp)
    | some r =>
      rw [hw] at h
      exact ih r.1 r.2.1 (writeFile_occupancy hw).1 h

theorem writeFile_sequence_occupancy_bound_witness :
    ∃ res, runWrites 10 c1Calls c1Cache c1Sys = some res ∧
      res.1.fileHandles.length ≤ res.1.maxFileHandles + 1 := by
  refine ⟨((⟨[("A", some ⟨0, "A"⟩), ("B", some ⟨1, "B"⟩), ("C", some ⟨2, "C"⟩)],
      [("A", 1), ("B", 2), ("C", 3)], 2⟩ : CacheState),
    (⟨[("A", "a\n"), ("B", "b\n"), ("C", "c\n")], 3⟩ : SysState)), by decide, ?_⟩
  exact writeFile_sequence_occupancy_bound 10 c1Calls c1Cache c1Sys _
    (by decide) (by decide)

/-! ## Key-set agreement between the two cache maps (claim C8) -/

theorem writeAppendStep_keys_eq {fn : String} {s : CacheState}
    (hmem : fn ∈ akeys s.fileHandles) (now : Nat) (wOk : Bool) (msg : String)
    (file : Handle) (sys : SysState) :
    akeys ((writeAppendStep now wOk fn msg file s sys).1).fileHandles
        = akeys s.fileHandles ∧
    ((writeAppendStep now wOk fn msg file s sys).1).fileAccessTimes
        = aupdate fn now s.fileAccessTimes := by
  unfold writeAppendStep
  by_cases hw : wOk = true
  · simp only [if_pos hw]
    exact ⟨trivial, trivial⟩
  · simp only [if_neg hw]
    exact ⟨akeys_aupdate_of_mem hmem none, trivial⟩

theorem keys_writeFileBody {s : CacheState}
    (hk : akeys s.fileHandles = akeys s.fileAccessTimes)
    (now : Nat) (oOk wOk : Bool) (fn msg : String) (sys : SysState) :
    akeys ((writeFileBody now oOk wOk fn msg s sys).1).fileHandles
      = akeys ((writeFileBody now oOk wOk fn msg s sys).1).fileAccessTimes := by
  unfold writeFileBody
  cases hl : alookup fn s.fileHandles with
  | some ho =>
    cases ho with
    | some file =>
      have hmem := mem_akeys_of_alookup hl
      obtain ⟨h1, h2⟩ := writeAppendStep_keys_eq hmem now wOk msg file sys
      rw [h1, h2, akeys_aupdate_of_mem (hk ▸ hmem)]
      exact hk
    | none =>
      have hmem := mem_akeys_of_alookup hl
      by_cases ho2 : oOk = true
      · simp only [if_pos ho2]
        have hmem1 : fn ∈ akeys (aupdate fn (some (openFileAppend fn sys).1) s.fileHandles) :=
          mem_akeys_of_alookup (alookup_aupdate_self fn _ s.fileHandles)
        obtain ⟨h1, h2⟩ := writeAppendStep_keys_eq
          (s := { s with fileHandles := aupdate fn (some (openFileAppend fn sys).1) s.fileHandles })
          hmem1 now wOk msg (openFileAppend fn sys).1 (openFileAppend fn sys).2
        rw [h1, h2]
        dsimp only
        rw [akeys_aupdate_of_mem hmem, akeys_aupdate_of_mem (hk ▸ hmem)]
        exact hk
      · simp only [if_neg ho2]
        exact hk
  | none =>
    have hnotmem : fn ∉ akeys s.fileHandles := (alookup_eq_none_iff fn s.fileHandles).mp hl
    by_cases ho2 : oOk = true
    · simp only [if_pos ho2]
      have hmem1 : fn ∈ akeys (aupdate fn (some (openFileAppend fn sys).1) s.fileHandles) :=
        mem_akeys_of_alookup (alookup_aupdate_self fn _ s.fileHandles)
      obtain ⟨h1, h2⟩ := writeAppendStep_keys_eq
        (s := { s with fileHandles := aupdate fn (some (openFileAppend fn sys).1) s.fileHandles })
        hmem1 now wOk msg (openFileAppend fn sys).1 (openFileAppend fn sys).2
      rw [h1, h2]
      dsimp only
      rw [akeys_aupdate_of_not_mem hnotmem, akeys_aupdate_of_not_mem (fun hm => hnotmem (hk ▸ hm)),
        hk]
    · simp only [if_neg ho2]
      exact hk

theorem keys_cleanupIter {s : CacheState}
    (hk : akeys s.fileHandles = akeys s.fileAccessTimes) (now : Nat) :
    akeys (cleanupIter now s).fileHandles = akeys (cleanupIter now s).fileAccessTimes := by
  unfold cleanupIter
  dsimp only
  split
  · split
    · exact akeys_aerase_congr hk _
    · exact hk
  · exact hk

theorem keys_cleanupFuel {now fuel : Nat} {s s' : CacheState}
    (hk : akeys s.fileHandles = akeys s.fileAccessTimes)
    (h : cleanupFileHandlesFuel now fuel s = some s') :
    akeys s'.fileHandles = akeys s'.fileAccessTimes := by
  induction fuel generalizing s with
  | zero =>
    unfold cleanupFileHandlesFuel at h
    by_cases hg : s.fileHandles.length > s.maxFileHandles
    · rw [if_pos hg] at h
      exact absurd h (by simp)
    · rw [if_neg hg] at h
      cases h
      exact hk
  | succ fuel ih =>
    unfold cleanupFileHandlesFuel at h
    by_cases hg : s.fileHandles.length > s.maxFileHandles
    · rw [if_pos hg] at h
      exact ih (keys_cleanupIter hk now) h
    · rw [if_neg hg] at h
      cases h
      exact hk

theorem keys_writeFile {fuel now : Nat} {oOk wOk : Bool} {fn msg : String}
    {s : CacheState} {sys : SysState} {r : CacheState × SysState × List Report}
    (hk : akeys s.fileHandles = akeys s.fileAccessTimes)
    (h : writeFile fuel now oOk wOk fn msg s sys = some r) :
    akeys r.1.fileHandles = akeys r.1.fileAccessTimes := by
  unfold writeFile at h
  by_cases hg : s.fileHandles.length > s.maxFileHandles
  · rw [if_pos hg] at h
    cases hc : cleanupFileHandlesFuel now fuel s with
    | none =>
      rw [hc] at h
      exact absurd h (by simp)
    | some s1 =>
      rw [hc] at h
      simp only [Option.some.injEq] at h
      subst h
      exact keys_writeFileBody (keys_cleanupFuel hk hc) now oOk wOk fn msg sys
  · rw [if_neg hg] at h
    simp only [Option.some.injEq] at h
    subst h
    exact keys_writeFileBody hk now oOk wOk fn msg sys

theorem keys_cleanupUnusedAux (thr : Nat) (l : List (String × Nat)) (s : CacheState)
    (hk : akeys s.fileHandles = akeys s.fileAccessTimes) :
    akeys (cleanupUnusedAux thr l s).1.fileHandles
      = akeys (cleanupUnusedAux thr l s).1.fileAccessTimes := by
  induction l generalizing s with
  | nil => exact hk
  | cons p rest ih =>
    obtain ⟨fn, t⟩ := p
    unfold cleanupUnusedAux
    by_cases ht : t < thr
    · simp only [if_pos ht]
      cases hl : alookup fn s.fileHandles with
      | some file =>
        dsimp only
        exact ih _ (akeys_aerase_congr hk fn)
      | none => exact ih s hk
    · simp only [if_neg ht]
      exact ih s hk

/-! ## Claim C8 -/

/-- C8: every cache-touching operation — `writeFile`, the capacity eviction
`cleanupFileHandles`, and the idle reclamation `cleanupUnusedFileHandles` —
preserves the invariant that `fileHandles` and `fileAccessTimes` have exactly
the same keys (indeed, in the same map order): a path has a cached handle
entry iff it has a last-access timestamp. -/
theorem cache_key_sets_agree (fuel now : Nat) (oOk wOk : Bool) (fn msg : String)
    (s : CacheState) (sys : SysState)
    (hk : akeys s.fileHandles = akeys s.fileAccessTimes) :
    (∀ r, writeFile fuel now oOk wOk fn msg s sys = some r →
        akeys r.1.fileHandles = akeys r.1.fileAccessTimes) ∧
    (∀ s', cleanupFileHandlesFuel now fuel s = some s' →
        akeys s'.fileHandles = akeys s'.fileAccessTimes) ∧
    akeys (cleanupUnusedFileHandles now s).1.fileHandles
      = akeys (cleanupUnusedFileHandles now s).1.fileAccessTimes :=
  ⟨fun _ h => keys_writeFile hk h, fun _ h => keys_cleanupFuel hk h,
    keys_cleanupUnusedAux _ _ _ hk⟩

theorem cache_key_sets_agree_witness :
    akeys (cleanupUnusedFileHandles 5000
        ⟨[("A", some ⟨0, "A"⟩)], [("A", 1)], 10⟩).1.fileHandles
      = akeys (cleanupUnusedFileHandles 5000
        ⟨[("A", some ⟨0, "A"⟩)], [("A", 1)], 10⟩).1.fileAccessTimes :=
  (cache_key_sets_agree 5 5000 true true "B" "m"
    ⟨[("A", some ⟨0, "A"⟩)], [("A", 1)], 10⟩ ⟨[], 0⟩ (by decide)).2.2

/-! ## Claim C6 -/

/-- A write to a path whose cache slot holds the invalidated (`nil`) handle
re-opens the file: the fresh handle carries the next OS handle id. -/
theorem writeFile_reopens_after_nil {fuel now : Nat} {fn msg : String}
    {s : CacheState} {sys : SysState}
    (hcap : ¬ s.fileHandles.length > s.maxFileHandles)
    (hnil : alookup fn s.fileHandles = some none) :
    ∃ s2 sys2 reps, writeFile fuel now true true fn msg s sys = some (s2, sys2, reps) ∧
      alookup fn s2.fileHandles = some (some ⟨sys.nextHandle, fn⟩) := by
  unfold writeFile
  rw [if_neg hcap]
  dsimp only
  unfold writeFileBody
  rw [hnil]
  dsimp only
  unfold writeAppendStep
  simp only [if_pos rfl]
  exact ⟨_, _, _, rfl, alookup_aupdate_self fn _ s.fileHandles⟩

/-- C6: in `writeFile` (below the capacity-eviction trigger), if appending to
a cached handle fails, the failure is reported (`writeFailure`) and the
cached handle is invalidated — the slot is set to the `nil` handle, so the
very next write to the same path re-opens the file with a fresh handle; if
opening the file fails, the failure is reported (`openFailure`) and the write
aborts with the cache, the file system and everything else unchanged — no
retry happens and no cache entry is added. -/
theorem writeFile_failure_reporting (fuel now : Nat) (fn msg : String)
    (s : CacheState) (sys : SysState)
    (hcap : ¬ s.fileHandles.length > s.maxFileHandles) :
    (∀ h0 : Handle, alookup fn s.fileHandles = some (some h0) →
      ∃ s1, writeFile fuel now true false fn msg s sys
          = some (s1, sys, [Report.writeFailure fn]) ∧
        alookup fn s1.fileHandles = some none ∧
        s1.maxFileHandles = s.maxFileHandles ∧
        s1.fileHandles.length = s.fileHandles.length ∧
        (∀ fuel2 now2 msg2 sys2,
          ∃ s2 sys3 reps, writeFile fuel2 now2 true true fn msg2 s1 sys2
              = some (s2, sys3, reps) ∧
            alookup fn s2.fileHandles = some (some ⟨sys2.nextHandle, fn⟩))) ∧
    (∀ wOk : Bool, alookup fn s.fileHandles = none →
      writeFile fuel now false wOk fn msg s sys = some (s, sys, [Report.openFailure fn])) := by
  constructor
  · intro h0 hl
    have hmem : fn ∈ akeys s.fileHandles := mem_akeys_of_alookup hl
    refine ⟨⟨aupdate fn none s.fileHandles, aupdate fn now s.fileAccessTimes,
        s.maxFileHandles⟩, ?_, ?_, rfl, ?_, ?_⟩
    · unfold writeFile
      rw [if_neg hcap]
      dsimp only
      unfold writeFileBody
      rw [hl]
      dsimp only
      rfl
    · exact alookup_aupdate_self fn none s.fileHandles
    · exact length_aupdate_of_mem hmem none
    · intro fuel2 now2 msg2 sys2
      apply writeFile_reopens_after_nil
      · dsimp only
        rw [length_aupdate_of_mem hmem none]
        exact hcap
      · exact alookup_aupdate_self fn none s.fileHandles
  · intro wOk hl
    unfold writeFile
    rw [if_neg hcap]
    dsimp only
    unfold writeFileBody
    rw [hl]
    dsimp only
    rfl

theorem writeFile_failure_reporting_witness :
    (∃ s1, writeFile 5 9 true false "A" "m"
          ⟨[("A", some ⟨0, "A"⟩)], [("A", 1)], 10⟩ ⟨[("A", "x\n")], 1⟩
        = some (s1, ⟨[("A", "x\n")], 1⟩, [Report.writeFailure "A"]) ∧
      alookup "A" s1.fileHandles = some none) ∧
    writeFile 5 9 false true "B" "m"
        ⟨[("A", some ⟨0, "A"⟩)], [("A", 1)], 10⟩ ⟨[("A", "x\n")], 1⟩
      = some (⟨[("A", some ⟨0, "A"⟩)], [("A", 1)], 10⟩, ⟨[("A", "x\n")], 1⟩,
          [Report.openFailure "B"]) := by
  have h := writeFile_failure_reporting 5 9 "A" "m"
    ⟨[("A", some ⟨0, "A"⟩)], [("A", 1)], 10⟩ ⟨[("A", "x\n")], 1⟩ (by decide)
  have h2 := writeFile_failure_reporting 5 9 "B" "m"
    ⟨[("A", some ⟨0, "A"⟩)], [("A", 1)], 10⟩ ⟨[("A", "x\n")], 1⟩ (by decide)
  obtain ⟨s1, hw, hnil, _⟩ := h.1 ⟨0, "A"⟩ rfl
  exact ⟨⟨s1, hw, hnil⟩, h2.2 true rfl⟩

/-! ## Support lemmas for the idle reclaimer (claim C5) -/

theorem mem_of_alookup {k : String} {v : α} {l : List (String × α)}
    (h : alookup k l = some v) : (k, v) ∈ l := by
  induction l with
  | nil => simp [alookup] at h
  | cons p rest ih =>
    obtain ⟨k', v'⟩ := p
    by_cases hk : k' = k
    · subst hk
      unfold alookup at h
      rw [if_pos rfl] at h
      cases h
      exact List.mem_cons_self _ _
    · unfold alookup at h
      rw [if_neg hk] at h
      exact List.mem_cons_of_mem _ (ih h)

theorem alookup_of_mem_nodup {k : String} {v : α} {l : List (String × α)}
    (hnd : (akeys l).Nodup) (h : (k, v) ∈ l) : alookup k l = some v := by
  induction l with
  | nil => simp at h
  | cons p rest ih =>
    obtain ⟨k', v'⟩ := p
    rcases List.mem_cons.mp h with h1 | h2
    · have he1 : k = k' := congrArg Prod.fst h1
      have he2 : v = v' := congrArg Prod.snd h1
      subst he1
      subst he2
      unfold alookup
      rw [if_pos rfl]
    · have hkmem : k ∈ akeys rest := List.mem_map_of_mem Prod.fst h2
      have hk : k' ≠ k := by
        intro he
        subst he
        exact (List.nodup_cons.mp hnd).1 hkmem
      unfold alookup
      rw [if_neg hk]
      exact ih (List.nodup_cons.mp hnd).2 h2

theorem aerase_sublist (k : String) (l : List (String × α)) : (aerase k l).Sublist l := by
  induction l with
  | nil => simp [aerase]
  | cons p rest ih =>
    obtain ⟨k', v'⟩ := p
    by_cases h : k' = k
    · simp [aerase, h]
    · simp only [aerase, if_neg h]
      exact List.Sublist.cons₂ _ ih

/-- Full characterization of one idle-reclamation pass over the snapshot
list `l`: entries of `l` older than the threshold are removed from both maps,
entries of `l` at or within the threshold are untouched, and keys outside `l`
are untouched. -/
theorem cleanupUnusedAux_characterization (thr : Nat) (l : List (String × Nat))
    (s : CacheState)
    (hnd : (akeys s.fileAccessTimes).Nodup)
    (hk : akeys s.fileHandles = akeys s.fileAccessTimes)
    (hl : ∀ p t, (p, t) ∈ l → alookup p s.fileAccessTimes = some t)
    (hlnd : (akeys l).Nodup) :
    (∀ p t, (p, t) ∈ l → t < thr →
        alookup p (cleanupUnusedAux thr l s).1.fileHandles = none ∧
        alookup p (cleanupUnusedAux thr l s).1.fileAccessTimes = none) ∧
    (∀ p t, (p, t) ∈ l → ¬ t < thr →
        alookup p (cleanupUnusedAux thr l s).1.fileHandles = alookup p s.fileHandles ∧
        alookup p (cleanupUnusedAux thr l s).1.fileAccessTimes
          = alookup p s.fileAccessTimes) ∧
    (∀ q, q ∉ akeys l →
        alookup q (cleanupUnusedAux thr l s).1.fileHandles = alookup q s.fileHandles ∧
        alookup q (cleanupUnusedAux thr l s).1.fileAccessTimes
          = alookup q s.fileAccessTimes) := by
  induction l generalizing s with
  | nil =>
    refine ⟨?_, ?_, ?_⟩
    · intro p t hmem
      simp at hmem
    · intro p t hmem
      simp at hmem
    · intro q _
      exact ⟨rfl, rfl⟩
  | cons e rest ih =>
    obtain ⟨fn, ft⟩ := e
    have hfnrest : fn ∉ akeys rest := (List.nodup_cons.mp hlnd).1
    have hrestnd : (akeys rest).Nodup := (List.nodup_cons.mp hlnd).2
    have hndH : (akeys s.fileHandles).Nodup := hk ▸ hnd
    by_cases ht : ft < thr
    · -- fn is older than the threshold: it gets reclaimed
      have hfnT : alookup fn s.fileAccessTimes = some ft :=
        hl fn ft (List.mem_cons_self _ _)
      have hfnmemT : fn ∈ akeys s.fileAccessTimes := mem_akeys_of_alookup hfnT
      have hfnmemH : fn ∈ akeys s.fileHandles := hk ▸ hfnmemT
      obtain ⟨file, hfile⟩ := alookup_isSome_of_mem hfnmemH
      have hred : (cleanupUnusedAux thr ((fn, ft) :: rest) s).1
          = (cleanupUnusedAux thr rest
              ⟨aerase fn s.fileHandles, aerase fn s.fileAccessTimes,
                s.maxFileHandles⟩).1 := by
        conv_lhs => rw [cleanupUnusedAux, if_pos ht, hfile]
      have hnd1 : (akeys (aerase fn s.fileAccessTimes)).Nodup := nodup_akeys_aerase hnd
      have hk1 : akeys (aerase fn s.fileHandles) = akeys (aerase fn s.fileAccessTimes) :=
        akeys_aerase_congr hk fn
      have hl1 : ∀ p t, (p, t) ∈ rest →
          alookup p (aerase fn s.fileAccessTimes) = some t := by
        intro p t hmem
        have hpfn : fn ≠ p := by
          intro he
          exact hfnrest (he ▸ List.mem_map_of_mem Prod.fst hmem)
        rw [alookup_aerase_ne hpfn]
        exact hl p t (List.mem_cons_of_mem _ hmem)
      obtain ⟨ih1, ih2, ih3⟩ :=
        ih ⟨aerase fn s.fileHandles, aerase fn s.fileAccessTimes, s.maxFileHandles⟩
          hnd1 hk1 hl1 hrestnd
      refine ⟨?_, ?_, ?_⟩
      · intro p t hmem htlt
        rcases List.mem_cons.mp hmem with h1 | h2
        · obtain ⟨hp, _⟩ := Prod.mk.inj h1
          subst hp
          rw [hred]
          obtain ⟨e1, e2⟩ := ih3 p hfnrest
          exact ⟨e1.trans (alookup_aerase_self hndH),
            e2.trans (alookup_aerase_self hnd)⟩
        · rw [hred]
          exact ih1 p t h2 htlt
      · intro p t hmem hge
        rcases List.mem_cons.mp hmem with h1 | h2
        · obtain ⟨hp, htv⟩ := Prod.mk.inj h1
          exact absurd (htv ▸ ht) hge
        · have hpfn : fn ≠ p := by
            intro he
            exact hfnrest (he ▸ List.mem_map_of_mem Prod.fst h2)
          rw [hred]
          obtain ⟨e1, e2⟩ := ih2 p t h2 hge
          exact ⟨e1.trans (alookup_aerase_ne hpfn _),
            e2.trans (alookup_aerase_ne hpfn _)⟩
      · intro q hq
        have hqfn : fn ≠ q := by
          intro he
          exact hq (he ▸ List.mem_cons_self _ _)
        have hqrest : q ∉ akeys rest := fun hm => hq (List.mem_cons_of_mem _ hm)
        rw [hred]
        obtain ⟨e1, e2⟩ := ih3 q hqrest
        exact ⟨e1.trans (alookup_aerase_ne hqfn _),
          e2.trans (alookup_aerase_ne hqfn _)⟩
    · -- fn is within the threshold: nothing happens to it
      have hred : (cleanupUnusedAux thr ((fn, ft) :: rest) s).1
          = (cleanupUnusedAux thr rest s).1 := by
        conv_lhs => rw [cleanupUnusedAux, if_neg ht]
      have hl1 : ∀ p t, (p, t) ∈ rest → alookup p s.fileAccessTimes = some t :=
        fun p t hmem => hl p t (List.mem_cons_of_mem _ hmem)
      obtain ⟨ih1, ih2, ih3⟩ := ih s hnd hk hl1 hrestnd
      refine ⟨?_, ?_, ?_⟩
      · intro p t hmem htlt
        rcases List.mem_cons.mp hmem with h1 | h2
        · obtain ⟨_, htv⟩ := Prod.mk.inj h1
          exact absurd (htv ▸ htlt) ht
        · rw [hred]
          exact ih1 p t h2 htlt
      · intro p t hmem hge
        rcases List.mem_cons.mp hmem with h1 | h2
        · obtain ⟨hp, _⟩ := Prod.mk.inj h1
          subst hp
          rw [hred]
          exact ih3 p hfnrest
        · rw [hred]
          exact ih2 p t h2 hge
      · intro q hq
        have hqrest : q ∉ akeys rest := fun hm => hq (List.mem_cons_of_mem _ hm)
        rw [hred]
        exact ih3 q hqrest

/-- A write to a path with no cache entry (open succeeding, write
succeeding) opens the file in create/append mode and appends: the resulting
contents are the previous contents (empty for a fresh file) followed by the
message and a newline. -/
theorem openFileAppend_getD (p : String) (sys : SysState) :
    (alookup p (openFileAppend p sys).2.files).getD ""
      = (alookup p sys.files).getD "" := by
  unfold openFileAppend
  dsimp only
  cases hf : alookup p sys.files with
  | some c =>
    dsimp only
    rw [hf]
  | none =>
    dsimp only
    rw [alookup_aupdate_self p "" sys.files]
    rfl

theorem writeFile_fresh_append {fuel now : Nat} {p msg : String} {s : CacheState}
    {sys : SysState}
    (hcap : ¬ s.fileHandles.length > s.maxFileHandles)
    (hp : alookup p s.fileHandles = none) :
    ∃ r, writeFile fuel now true true p msg s sys = some r ∧
      alookup p r.2.1.files = some ((alookup p sys.files).getD "" ++ (msg ++ "\n")) := by
  have hred : writeFile fuel now true true p msg s sys
      = some (⟨aupdate p (some ⟨sys.nextHandle, p⟩) s.fileHandles,
               aupdate p now s.fileAccessTimes, s.maxFileHandles⟩,
              appendToFile p (msg ++ "\n") (openFileAppend p sys).2, []) := by
    unfold writeFile
    rw [if_neg hcap]
    dsimp only
    unfold writeFileBody
    rw [hp]
    rfl
  rw [hred]
  refine ⟨_, rfl, ?_⟩
  unfold appendToFile
  dsimp only
  rw [alookup_aupdate_self p _ (openFileAppend p sys).2.files,
    openFileAppend_getD p sys]

/-! ## Claim C5 -/

/-- C5: each run of the idle reclaimer (`cleanupUnusedFileHandles`) closes
and removes from the cache exactly those entries whose last-access timestamp
is older than the 30-minute idle threshold at sweep time — no capacity test
appears anywhere in the pass — while entries accessed within the threshold
keep their handle and their timestamp unchanged; and a subsequent write to a
reclaimed path re-opens the file in create/append mode and appends: the new
contents are the old contents followed by the message, not an overwrite.
Stated under the cache invariants (key sets agree, keys unique), which hold
for every reachable cache state. -/
theorem idle_reclaimer_behavior (now : Nat) (s : CacheState)
    (hnd : (akeys s.fileAccessTimes).Nodup)
    (hk : akeys s.fileHandles = akeys s.fileAccessTimes) :
    (∀ p t, alookup p s.fileAccessTimes = some t →
        t < now - DefaultUnusedFileHandleThreshold →
        alookup p (cleanupUnusedFileHandles now s).1.fileHandles = none ∧
        alookup p (cleanupUnusedFileHandles now s).1.fileAccessTimes = none) ∧
    (∀ p t, alookup p s.fileAccessTimes = some t →
        ¬ t < now - DefaultUnusedFileHandleThreshold →
        alookup p (cleanupUnusedFileHandles now s).1.fileHandles
          = alookup p s.fileHandles ∧
        alookup p (cleanupUnusedFileHandles now s).1.fileAccessTimes = some t) ∧
    (∀ p t, alookup p s.fileAccessTimes = some t →
        t < now - DefaultUnusedFileHandleThreshold →
        ∀ fuel now2 msg sys,
          ¬ (cleanupUnusedFileHandles now s).1.fileHandles.length
              > (cleanupUnusedFileHandles now s).1.maxFileHandles →
          ∃ r, writeFile fuel now2 true true p msg
              (cleanupUnusedFileHandles now s).1 sys = some r ∧
            alookup p r.2.1.files
              = some ((alookup p sys.files).getD "" ++ (msg ++ "\n"))) := by
  obtain ⟨h1, h2, _⟩ :=
    cleanupUnusedAux_characterization (now - DefaultUnusedFileHandleThreshold)
      s.fileAccessTimes s hnd hk (fun _ _ hm => alookup_of_mem_nodup hnd hm) hnd
  refine ⟨?_, ?_, ?_⟩
  · intro p t hpt hlt
    exact h1 p t (mem_of_alookup hpt) hlt
  · intro p t hpt hge
    obtain ⟨e1, e2⟩ := h2 p t (mem_of_alookup hpt) hge
    exact ⟨e1, e2.trans hpt⟩
  · intro p t hpt hlt fuel now2 msg sys hcap
    exact writeFile_fresh_append hcap (h1 p t (mem_of_alookup hpt) hlt).1

/-- Cache for the C5 witness: A last touched at 100, B at 300; at sweep time
2000 the threshold is 200, so A is stale and B is fresh. -/
def c5Cache : CacheState :=
  ⟨[("A", some ⟨0, "A"⟩), ("B", some ⟨1, "B"⟩)], [("A", 100), ("B", 300)], 10⟩

def c5Sys : SysState := ⟨[("A", "old\n")], 5⟩

theorem idle_reclaimer_behavior_witness :
    (alookup "A" (cleanupUnusedFileHandles 2000 c5Cache).1.fileHandles = none ∧
     alookup "A" (cleanupUnusedFileHandles 2000 c5Cache).1.fileAccessTimes = none) ∧
    (alookup "B" (cleanupUnusedFileHandles 2000 c5Cache).1.fileHandles
        = alookup "B" c5Cache.fileHandles ∧
     alookup "B" (cleanupUnusedFileHandles 2000 c5Cache).1.fileAccessTimes = some 300) ∧
    (∃ r, writeFile 4 2500 true true "A" "x" (cleanupUnusedFileHandles 2000 c5Cache).1
        c5Sys = some r ∧
      alookup "A" r.2.1.files
        = some ((alookup "A" c5Sys.files).getD "" ++ ("x" ++ "\n"))) := by
  have h := idle_reclaimer_behavior 2000 c5Cache (by decide) (by decide)
  exact ⟨h.1 "A" 100 (by decide) (by decide),
    h.2.1 "B" 300 (by decide) (by decide),
    h.2.2 "A" 100 (by decide) (by decide) 4 2500 "x" c5Sys (by decide)⟩

/-! ## Claim C3 (Close) -/

/-- First close pass over a cache of live handles: every cached handle id is
closed (removed from the OS table), nothing outside the table appears, and no
failure is reported. -/
theorem closeHandlesLoop_spec (l : List (String × Option Handle)) (opens : List Nat)
    (hnd : opens.Nodup) (hids : (handleIds l).Nodup)
    (hsub : ∀ i ∈ handleIds l, i ∈ opens)
    (hsome : ∀ pe ∈ l, pe.2 ≠ none) :
    (∀ i ∈ handleIds l, i ∉ (closeHandlesLoop l opens).1) ∧
    (∀ i ∈ (closeHandlesLoop l opens).1, i ∈ opens) ∧
    (closeHandlesLoop l opens).2 = [] := by
  induction l generalizing opens with
  | nil =>
    exact ⟨fun i hi => by simp [handleIds] at hi, fun i hi => hi, rfl⟩
  | cons pe rest ih =>
    obtain ⟨pname, ho⟩ := pe
    cases ho with
    | none =>
      exact absurd rfl (hsome (pname, none) (List.mem_cons_self _ _))
    | some h =>
      have hids' : handleIds ((pname, some h) :: rest) = h.id :: handleIds rest := rfl
      have hmem : h.id ∈ opens := hsub h.id (by rw [hids']; exact List.mem_cons_self _ _)
      have hnotin : h.id ∉ handleIds rest := by
        rw [hids'] at hids
        exact (List.nodup_cons.mp hids).1
      have hrestnd : (handleIds rest).Nodup := by
        rw [hids'] at hids
        exact (List.nodup_cons.mp hids).2
      have hred : closeHandlesLoop ((pname, some h) :: rest) opens
          = closeHandlesLoop rest (opens.erase h.id) := by
        conv_lhs => rw [closeHandlesLoop, if_pos hmem]
      obtain ⟨ih1, ih2, ih3⟩ := ih (opens.erase h.id) (hnd.erase h.id) hrestnd
        (fun i hi => (List.mem_erase_of_ne (fun he => hnotin (by rw [← he]; exact hi))).mpr
          (hsub i (by rw [hids']; exact List.mem_cons_of_mem _ hi)))
        (fun pe hpe => hsome pe (List.mem_cons_of_mem _ hpe))
      refine ⟨?_, ?_, ?_⟩
      · intro i hi
        rw [hred]
        rcases List.mem_cons.mp (by rw [hids'] at hi; exact hi) with h1 | h2
        · subst h1
          intro hcon
          exact List.Nodup.not_mem_erase hnd (ih2 _ hcon)
        · exact ih1 i h2
      · intro i hi
        rw [hred] at hi
        exact List.mem_of_mem_erase (ih2 i hi)
      · rw [hred]
        exact ih3

/-- A close pass over a cache none of whose handles is open any more: every
close attempt fails (one reported failure per cache entry) and the OS table
is unchanged. -/
theorem closeHandlesLoop_all_fail (l : List (String × Option Handle)) (opens : List Nat)
    (hdis : ∀ i ∈ handleIds l, i ∉ opens) :
    (closeHandlesLoop l opens).1 = opens ∧
    (closeHandlesLoop l opens).2.length = l.length := by
  induction l generalizing opens with
  | nil => exact ⟨rfl, rfl⟩
  | cons pe rest ih =>
    obtain ⟨pname, ho⟩ := pe
    cases ho with
    | none =>
      obtain ⟨e1, e2⟩ := ih opens (fun i hi => hdis i hi)
      have hred : closeHandlesLoop ((pname, none) :: rest) opens
          = ((closeHandlesLoop rest opens).1,
             Report.closeFailure :: (closeHandlesLoop rest opens).2) := rfl
      rw [hred]
      exact ⟨e1, by simpa using e2⟩
    | some h =>
      have hnot : h.id ∉ opens := hdis h.id (List.mem_cons_self _ _)
      have hred : closeHandlesLoop ((pname, some h) :: rest) opens
          = ((closeHandlesLoop rest opens).1,
             Report.closeFailure :: (closeHandlesLoop rest opens).2) := by
        conv_lhs => rw [closeHandlesLoop, if_neg hnot]
      obtain ⟨e1, e2⟩ := ih opens
        (fun i hi => hdis i (List.mem_cons_of_mem _ hi))
      rw [hred]
      exact ⟨e1, by simpa using e2⟩

/-- Counterexample to C3 as stated: `Close` deletes nothing from
`fileHandles`, so after `Close` the cache is not empty (the entry for
"a.log" is still there); and a second `Close` iterates the same map again,
re-attempting `file.Close()` on the already-closed handle — the attempt
fails with a reported error rather than being skipped. -/
theorem close_leaves_cache_nonempty_counterexample :
    (CloseLogger ⟨[("a.log", some ⟨0, "a.log"⟩)], [("a.log", 7)], 10⟩ [0]).1.fileHandles
        = [("a.log", some ⟨0, "a.log"⟩)] ∧
    (CloseLogger ⟨[("a.log", some ⟨0, "a.log"⟩)], [("a.log", 7)], 10⟩
        ((CloseLogger ⟨[("a.log", some ⟨0, "a.log"⟩)], [("a.log", 7)], 10⟩ [0]).2.1)).2.2
        = [Report.closeFailure] := by
  constructor <;> decide

/-- C3 amended: `Close` attempts to close every handle remaining in the
cache, reporting (not raising) individual close failures, and on a cache of
live handles it closes each exactly once (no failure reported); but it
leaves the cache map unchanged — not empty. Calling `Close` a second time
therefore iterates the same handles again: each close attempt fails (the
Go `os.File.Close` returns an error on a closed file) and is merely
reported; nothing closes twice at the OS level and nothing panics (the
embedding is total). -/
theorem close_attempts_all_handles_but_keeps_cache (s : CacheState) (opens : List Nat)
    (hnd : opens.Nodup) (hids : (handleIds s.fileHandles).Nodup)
    (hsub : ∀ i ∈ handleIds s.fileHandles, i ∈ opens)
    (hsome : ∀ pe ∈ s.fileHandles, pe.2 ≠ none) :
    (CloseLogger s opens).1 = s ∧
    (∀ i ∈ handleIds s.fileHandles, i ∉ (CloseLogger s opens).2.1) ∧
    (CloseLogger s opens).2.2 = [] ∧
    (CloseLogger s (CloseLogger s opens).2.1).2.1 = (CloseLogger s opens).2.1 ∧
    (CloseLogger s (CloseLogger s opens).2.1).2.2.length = s.fileHandles.length := by
  obtain ⟨h1, h2, h3⟩ := closeHandlesLoop_spec s.fileHandles opens hnd hids hsub hsome
  obtain ⟨g1, g2⟩ := closeHandlesLoop_all_fail s.fileHandles
    (closeHandlesLoop s.fileHandles opens).1 (fun i hi => h1 i hi)
  exact ⟨rfl, h1, h3, g1, g2⟩

/-- Cache of two live handles for the C3 witness. -/
def c3Cache : CacheState :=
  ⟨[("a", some ⟨0, "a"⟩), ("b", some ⟨1, "b"⟩)], [("a", 1), ("b", 2)], 10⟩

theorem close_attempts_all_handles_but_keeps_cache_witness :
    (CloseLogger c3Cache [0, 1]).1 = c3Cache ∧
    (CloseLogger c3Cache [0, 1]).2.2 = [] ∧
    (CloseLogger c3Cache (CloseLogger c3Cache [0, 1]).2.1).2.2.length
      = c3Cache.fileHandles.length := by
  have h := close_attempts_all_handles_but_keeps_cache c3Cache [0, 1]
    (by decide) (by decide) (by decide) (by decide)
  exact ⟨h.1, h.2.2.1, h.2.2.2.2⟩

/-! ## Claim C9 (termination of the capacity-eviction loop) -/

theorem findOldestAux_min (t : Nat) (f : String) (l : List (String × Nat)) :
    (findOldestAux t f l).1 ≤ t ∧ ∀ p ∈ l, (findOldestAux t f l).1 ≤ p.2 := by
  induction l generalizing t f with
  | nil => exact ⟨le_refl t, fun p hp => absurd hp (List.not_mem_nil p)⟩
  | cons e rest ih =>
    obtain ⟨k, a⟩ := e
    by_cases h : a < t
    · have hred : findOldestAux t f ((k, a) :: rest) = findOldestAux a k rest := by
        conv_lhs => rw [findOldestAux, if_pos h]
      rw [hred]
      obtain ⟨ih1, ih2⟩ := ih a k
      refine ⟨le_trans ih1 (le_of_lt h), ?_⟩
      intro p hp
      rcases List.mem_cons.mp hp with h1 | h2
      · have hpa : p.2 = a := congrArg Prod.snd h1
        rw [hpa]
        exact ih1
      · exact ih2 p h2
    · have hred : findOldestAux t f ((k, a) :: rest) = findOldestAux t f rest := by
        conv_lhs => rw [findOldestAux, if_neg h]
      rw [hred]
      obtain ⟨ih1, ih2⟩ := ih t f
      refine ⟨ih1, ?_⟩
      intro p hp
      rcases List.mem_cons.mp hp with h1 | h2
      · have hpa : p.2 = a := congrArg Prod.snd h1
        rw [hpa]
        omega
      · exact ih2 p h2

theorem findOldestAux_mem_or_init (t : Nat) (f : String) (l : List (String × Nat)) :
    findOldestAux t f l = (t, f) ∨
      ((findOldestAux t f l).2, (findOldestAux t f l).1) ∈ l := by
  induction l generalizing t f with
  | nil => exact Or.inl rfl
  | cons e rest ih =>
    obtain ⟨k, a⟩ := e
    by_cases h : a < t
    · have hred : findOldestAux t f ((k, a) :: rest) = findOldestAux a k rest := by
        conv_lhs => rw [findOldestAux, if_pos h]
      rw [hred]
      rcases ih a k with h1 | h2
      · right
        rw [h1]
        exact List.mem_cons_self _ _
      · right
        exact List.mem_cons_of_mem _ h2
    · have hred : findOldestAux t f ((k, a) :: rest) = findOldestAux t f rest := by
        conv_lhs => rw [findOldestAux, if_neg h]
      rw [hred]
      rcases ih t f with h1 | h2
      · exact Or.inl h1
      · exact Or.inr (List.mem_cons_of_mem _ h2)

/-- When the scan starts at `time.Now()` and every access time is strictly
in the past, the scan returns an actual entry of the map (never the initial
`""`), and that entry carries a minimal access time. -/
theorem findOldestAux_picks {now : Nat} {l : List (String × Nat)}
    (hne : l ≠ []) (hlt : ∀ p ∈ l, p.2 < now) :
    ((findOldestAux now "" l).2, (findOldestAux now "" l).1) ∈ l ∧
    ∀ p ∈ l, (findOldestAux now "" l).1 ≤ p.2 := by
  obtain ⟨hmin1, hmin2⟩ := findOldestAux_min now "" l
  rcases findOldestAux_mem_or_init now "" l with h1 | h2
  · obtain ⟨p0, hp0⟩ := List.exists_mem_of_ne_nil l hne
    have hle := hmin2 p0 hp0
    rw [h1] at hle
    exact absurd (lt_of_le_of_lt hle (hlt p0 hp0)) (lt_irrefl now)
  · exact ⟨h2, hmin2⟩

/-- One iteration of the eviction loop on a well-formed over-capacity cache
removes exactly one entry, and that entry has a minimal access time. -/
theorem cleanupIter_step (now : Nat) (s : CacheState)
    (hgt : s.fileHandles.length > s.maxFileHandles)
    (hk : akeys s.fileHandles = akeys s.fileAccessTimes)
    (hndT : (akeys s.fileAccessTimes).Nodup)
    (hne : ∀ p ∈ akeys s.fileAccessTimes, p ≠ "")
    (hlt : ∀ p ∈ s.fileAccessTimes, p.2 < now) :
    ∃ p t, alookup p s.fileAccessTimes = some t ∧
      (∀ q ∈ s.fileAccessTimes, t ≤ q.2) ∧
      cleanupIter now s = ⟨aerase p s.fileHandles, aerase p s.fileAccessTimes,
        s.maxFileHandles⟩ ∧
      (cleanupIter now s).fileHandles.length + 1 = s.fileHandles.length := by
  have hTne : s.fileAccessTimes ≠ [] := by
    intro hnil
    have hkeys0 : akeys s.fileHandles = [] := by
      rw [hk, hnil]
      rfl
    have hlen0 : s.fileHandles.length = 0 := by
      have := congrArg List.length hkeys0
      simpa [akeys] using this
    omega
  obtain ⟨hpick, hmin⟩ := findOldestAux_picks hTne hlt
  have hkeymem : (findOldestAux now "" s.fileAccessTimes).2 ∈ akeys s.fileAccessTimes :=
    List.mem_map_of_mem Prod.fst hpick
  have hkeyne : (findOldestAux now "" s.fileAccessTimes).2 ≠ "" :=
    hne _ hkeymem
  have hlook : alookup (findOldestAux now "" s.fileAccessTimes).2 s.fileAccessTimes
      = some (findOldestAux now "" s.fileAccessTimes).1 :=
    alookup_of_mem_nodup hndT hpick
  have hmemH : (findOldestAux now "" s.fileAccessTimes).2 ∈ akeys s.fileHandles :=
    hk ▸ hkeymem
  obtain ⟨file, hfile⟩ := alookup_isSome_of_mem hmemH
  have hred : cleanupIter now s
      = ⟨aerase (findOldestAux now "" s.fileAccessTimes).2 s.fileHandles,
         aerase (findOldestAux now "" s.fileAccessTimes).2 s.fileAccessTimes,
         s.maxFileHandles⟩ := by
    unfold cleanupIter
    dsimp only
    rw [if_pos hkeyne, hfile]
  refine ⟨(findOldestAux now "" s.fileAccessTimes).2,
    (findOldestAux now "" s.fileAccessTimes).1, hlook, hmin, hred, ?_⟩
  rw [hred]
  exact length_aerase_of_mem hmemH

/-- The eviction loop terminates with fuel equal to the occupancy, on any
well-formed cache all of whose access times are in the past and none of
whose paths is empty. -/
theorem cleanup_terminates_aux (now : Nat) (fuel : Nat) :
    ∀ s : CacheState, s.fileHandles.length ≤ fuel →
    akeys s.fileHandles = akeys s.fileAccessTimes →
    (akeys s.fileAccessTimes).Nodup →
    (∀ p ∈ akeys s.fileAccessTimes, p ≠ "") →
    (∀ p ∈ s.fileAccessTimes, p.2 < now) →
    ∃ s', cleanupFileHandlesFuel now fuel s = some s' ∧
      s'.fileHandles.length ≤ s'.maxFileHandles := by
  induction fuel with
  | zero =>
    intro s hlen hk hnd hne hlt
    unfold cleanupFileHandlesFuel
    rw [if_neg (by omega)]
    exact ⟨s, rfl, by omega⟩
  | succ fuel ih =>
    intro s hlen hk hnd hne hlt
    by_cases hg : s.fileHandles.length > s.maxFileHandles
    · obtain ⟨p, t, hlook, hmin, hredIter, hlenIter⟩ :=
        cleanupIter_step now s hg hk hnd hne hlt
      have hk1 : akeys (cleanupIter now s).fileHandles
          = akeys (cleanupIter now s).fileAccessTimes := by
        rw [hredIter]
        exact akeys_aerase_congr hk p
      have hnd1 : (akeys (cleanupIter now s).fileAccessTimes).Nodup := by
        rw [hredIter]
        exact nodup_akeys_aerase hnd
      have hne1 : ∀ q ∈ akeys (cleanupIter now s).fileAccessTimes, q ≠ "" := by
        rw [hredIter]
        intro q hq
        exact hne q ((akeys_aerase_sublist p s.fileAccessTimes).mem hq)
      have hlt1 : ∀ q ∈ (cleanupIter now s).fileAccessTimes, q.2 < now := by
        rw [hredIter]
        intro q hq
        exact hlt q ((aerase_sublist p s.fileAccessTimes).mem hq)
      have hlen1 : (cleanupIter now s).fileHandles.length ≤ fuel := by omega
      obtain ⟨s', hs', hb⟩ := ih (cleanupIter now s) hlen1 hk1 hnd1 hne1 hlt1
      refine ⟨s', ?_, hb⟩
      unfold cleanupFileHandlesFuel
      rw [if_pos hg]
      exact hs'
    · unfold cleanupFileHandlesFuel
      rw [if_neg hg]
      exact ⟨s, rfl, by omega⟩

/-- The state on which the eviction loop diverges: the only cached path is
the empty string. Its access time (0) is strictly before the sweep time (5)
and the occupancy (1) exceeds the limit (0), yet the `oldestFile != ""`
guard skips the deletion forever. -/
def c9Bad : CacheState := ⟨[("", some ⟨0, ""⟩)], [("", 0)], 0⟩

theorem c9Bad_loops : ∀ fuel, cleanupFileHandlesFuel 5 fuel c9Bad = none := by
  intro fuel
  induction fuel with
  | zero => decide
  | succ fuel ih =>
    have hiter : cleanupIter 5 c9Bad = c9Bad := by decide
    unfold cleanupFileHandlesFuel
    rw [if_pos (by decide), hiter]
    exact ih

/-- Counterexample to C9 as stated: in `c9Bad` every path in `fileHandles`
has an access-time entry strictly earlier than the current time (5), and the
occupancy exceeds `maxFileHandles`, yet an iteration of the loop removes
nothing (the loop body is the identity because the oldest path is `""`), so
`cleanupFileHandles` never terminates — no amount of fuel makes the guard
false. -/
theorem cleanupFileHandles_diverges_counterexample :
    c9Bad.fileHandles.length > c9Bad.maxFileHandles ∧
    (∀ p ∈ c9Bad.fileHandles, alookup p.1 c9Bad.fileAccessTimes = some 0) ∧
    (∀ q ∈ c9Bad.fileAccessTimes, q.2 < 5) ∧
    cleanupIter 5 c9Bad = c9Bad ∧
    ¬ ∃ fuel s', cleanupFileHandlesFuel 5 fuel c9Bad = some s' := by
  refine ⟨by decide, by decide, by decide, by decide, ?_⟩
  rintro ⟨fuel, s', hs'⟩
  rw [c9Bad_loops fuel] at hs'
  exact Option.noConfusion hs'

/-- C9 amended: `cleanupFileHandles` terminates — within `occupancy` many
iterations, ending with at most `maxFileHandles` entries — for every cache
state in which the two maps share their (duplicate-free) key set, every
cached path is non-empty, and every access timestamp is strictly earlier
than the current time; under the same conditions each loop iteration of an
over-capacity cache removes exactly one entry, one carrying a minimal
access timestamp. (The original claim omitted the non-empty-path and
key-agreement conditions; without them the loop can run forever, see the
counterexample.) -/
theorem cleanupFileHandles_terminates_on_wellformed_cache (now : Nat) (s : CacheState)
    (hk : akeys s.fileHandles = akeys s.fileAccessTimes)
    (hnd : (akeys s.fileAccessTimes).Nodup)
    (hne : ∀ p ∈ akeys s.fileAccessTimes, p ≠ "")
    (hlt : ∀ p ∈ s.fileAccessTimes, p.2 < now) :
    (∃ s', cleanupFileHandlesFuel now s.fileHandles.length s = some s' ∧
        s'.fileHandles.length ≤ s'.maxFileHandles) ∧
    (s.fileHandles.length > s.maxFileHandles →
      ∃ p t, alookup p s.fileAccessTimes = some t ∧
        (∀ q ∈ s.fileAccessTimes, t ≤ q.2) ∧
        cleanupIter now s = ⟨aerase p s.fileHandles, aerase p s.fileAccessTimes,
          s.maxFileHandles⟩ ∧
        (cleanupIter now s).fileHandles.length + 1 = s.fileHandles.length) :=
  ⟨cleanup_terminates_aux now s.fileHandles.length s (le_refl _) hk hnd hne hlt,
   fun hg => cleanupIter_step now s hg hk hnd hne hlt⟩

/-- A well-formed over-capacity cache for the C9 witness. -/
def c9Good : CacheState :=
  ⟨[("A", some ⟨0, "A"⟩), ("B", some ⟨1, "B"⟩)], [("A", 3), ("B", 7)], 1⟩

theorem cleanupFileHandles_terminates_on_wellformed_cache_witness :
    ∃ s', cleanupFileHandlesFuel 10 c9Good.fileHandles.length c9Good = some s' ∧
      s'.fileHandles.length ≤ s'.maxFileHandles :=
  (cleanupFileHandles_terminates_on_wellformed_cache 10 c9Good
    (by decide) (by decide) (by decide) (by decide)).1

end AsyncLog
